import Mathlib

/-!
Shallow embedding of the `enum-group-macros` crate
(`src/impl/src/lib.rs`, the generator and both macro entry points, and
`src/src/lib.rs`, the `EnumGroup` trait).

Token streams are modelled as trees (`Tok`): a delimited group is a single
token carrying its content, matching the host tokenizer.  Each parser is
translated from the corresponding `syn`-based Rust parser and returns
`Except ParseErr (A × List Tok)` with the unconsumed remainder; the two
macro entry points return `Except ParseErr` of the structured generated
output, mirroring `Result<_, syn::Error>` / `to_compile_error`.

Modelling conventions (the spec declares payload types, binding patterns
and expressions opaque to this system):
* a payload type reference is an opaque nonempty token span filling its
  parentheses;
* a subject or body expression is one opaque token tree (any compound
  expression is a single delimited token tree);
* a diagnostic (`ParseErr`) carries the expected construct and the
  offending token, standing for the span data of a `syn::Error`;
* the `while !content.is_empty()` loops are written with a fuel argument
  bounded by the token count; every loop iteration consumes at least one
  token, so fuel equal to the length of the token list never runs out.
-/

/-- A token tree: identifiers, the keywords used by the grammar,
punctuation, literals and delimited groups. -/
inductive Tok : Type where
  | ident : String → Tok
  | kwEnum : Tok
  | kwPub : Tok
  | comma : Tok
  | fatArrow : Tok
  | pound : Tok
  | parens : List Tok → Tok
  | braces : List Tok → Tok
  | brackets : List Tok → Tok
  | lit : String → Tok

/-- An outer attribute `#[...]`; its bracketed content is opaque. -/
structure Attr : Type where
  toks : List Tok

/-- A payload type reference: an opaque nonempty token span. -/
structure Ty : Type where
  toks : List Tok

/-- A visibility marker, as parsed by `syn::Visibility`. -/
inductive Vis : Type where
  | inherited : Vis
  | public : Vis
  | restricted : List Tok → Vis

/-- Mirror of `struct ParsedVariant { attrs, name, ty }`. -/
structure ParsedVariant : Type where
  attrs : List Attr
  name : String
  ty : Ty

/-- Mirror of `struct ParsedGroup { name, variants }`. -/
structure ParsedGroup : Type where
  name : String
  variants : List ParsedVariant

/-- Mirror of `struct EnumGroupInput { attrs, vis, name, groups }`. -/
structure EnumGroupInput : Type where
  attrs : List Attr
  vis : Vis
  name : String
  groups : List ParsedGroup

/-- A positioned diagnostic: the expected construct plus the offending
token (`none` when the input ended early). -/
structure ParseErr : Type where
  expected : String
  found : Option Tok

/-- Mirror of a `syn::Ident` parse: succeeds only on an identifier token. -/
def parseIdent (expected : String) : List Tok → Except ParseErr (String × List Tok)
  | Tok.ident s :: rest => Except.ok (s, rest)
  | t :: _ => Except.error ⟨expected, some t⟩
  | [] => Except.error ⟨expected, none⟩

/-- Mirror of `Attribute::parse_outer`: consumes every leading `#[...]`. -/
def parseOuterAttrs : List Tok → Except ParseErr (List Attr × List Tok)
  | Tok.pound :: Tok.brackets content :: rest =>
    match parseOuterAttrs rest with
    | Except.ok (attrs, rest2) => Except.ok (⟨content⟩ :: attrs, rest2)
    | Except.error e => Except.error e
  | Tok.pound :: t :: _ => Except.error ⟨"expected attribute brackets", some t⟩
  | [Tok.pound] => Except.error ⟨"expected attribute brackets", none⟩
  | ts => Except.ok ([], ts)

/-- Mirror of a `syn::Visibility` parse: `pub`, `pub(...)` or inherited. -/
def parseVis : List Tok → Vis × List Tok
  | Tok.kwPub :: Tok.parens r :: rest => (Vis.restricted r, rest)
  | Tok.kwPub :: rest => (Vis.public, rest)
  | ts => (Vis.inherited, ts)

/-- Mirror of `content.parse::<Type>()` on the parenthesized payload: the
type is opaque, so it is the whole nonempty content span. -/
def parseTypeAll : List Tok → Except ParseErr Ty
  | [] => Except.error ⟨"expected type", none⟩
  | ts => Except.ok ⟨ts⟩

/-- Mirror of `impl Parse for ParsedVariant`: outer attributes, a name,
then the parenthesized payload type. -/
def ParsedVariant.parse (ts : List Tok) : Except ParseErr (ParsedVariant × List Tok) :=
  match parseOuterAttrs ts with
  | Except.error e => Except.error e
  | Except.ok (attrs, ts1) =>
    match parseIdent "expected identifier" ts1 with
    | Except.error e => Except.error e
    | Except.ok (name, ts2) =>
      match ts2 with
      | Tok.parens content :: rest =>
        match parseTypeAll content with
        | Except.error e => Except.error e
        | Except.ok ty => Except.ok (⟨attrs, name, ty⟩, rest)
      | t :: _ => Except.error ⟨"expected parentheses", some t⟩
      | [] => Except.error ⟨"expected parentheses", none⟩

/-- Mirror of `if content.peek(Token![,]) { content.parse::<Token![,]>()?; }`:
consume one comma when the next token is a comma, otherwise nothing. -/
def consumeOptComma : List Tok → List Tok
  | Tok.comma :: rest => rest
  | ts => ts

/-- Mirror of the variant loop in `impl Parse for ParsedGroup`:
`while !content.is_empty()` parse a variant then one optional comma. -/
def parseVariantsLoop : Nat → List Tok → Except ParseErr (List ParsedVariant)
  | _, [] => Except.ok []
  | 0, _ :: _ => Except.error ⟨"exhausted fuel", none⟩
  | fuel + 1, t :: ts =>
    match ParsedVariant.parse (t :: ts) with
    | Except.error e => Except.error e
    | Except.ok (v, rest) =>
      match parseVariantsLoop fuel (consumeOptComma rest) with
      | Except.error e => Except.error e
      | Except.ok vs => Except.ok (v :: vs)

/-- Mirror of `impl Parse for ParsedGroup`: a name then a braced,
possibly empty, variant list. -/
def ParsedGroup.parse (ts : List Tok) : Except ParseErr (ParsedGroup × List Tok) :=
  match parseIdent "expected identifier" ts with
  | Except.error e => Except.error e
  | Except.ok (name, ts1) =>
    match ts1 with
    | Tok.braces content :: rest =>
      match parseVariantsLoop content.length content with
      | Except.error e => Except.error e
      | Except.ok vs => Except.ok (⟨name, vs⟩, rest)
    | t :: _ => Except.error ⟨"expected curly braces", some t⟩
    | [] => Except.error ⟨"expected curly braces", none⟩

/-- Mirror of the group loop in `impl Parse for EnumGroupInput`. -/
def parseGroupsLoop : Nat → List Tok → Except ParseErr (List ParsedGroup)
  | _, [] => Except.ok []
  | 0, _ :: _ => Except.error ⟨"exhausted fuel", none⟩
  | fuel + 1, t :: ts =>
    match ParsedGroup.parse (t :: ts) with
    | Except.error e => Except.error e
    | Except.ok (g, rest) =>
      match parseGroupsLoop fuel (consumeOptComma rest) with
      | Except.error e => Except.error e
      | Except.ok gs => Except.ok (g :: gs)

/-- Mirror of `impl Parse for EnumGroupInput`: outer attributes,
visibility, the `enum` keyword, the wire name, then the braced groups. -/
def EnumGroupInput.parse (ts : List Tok) : Except ParseErr (EnumGroupInput × List Tok) :=
  match parseOuterAttrs ts with
  | Except.error e => Except.error e
  | Except.ok (attrs, ts1) =>
    match parseVis ts1 with
    | (vis, ts2) =>
      match ts2 with
      | Tok.kwEnum :: ts3 =>
        match parseIdent "expected identifier" ts3 with
        | Except.error e => Except.error e
        | Except.ok (name, ts4) =>
          match ts4 with
          | Tok.braces content :: rest =>
            match parseGroupsLoop content.length content with
            | Except.error e => Except.error e
            | Except.ok gs => Except.ok (⟨attrs, vis, name, gs⟩, rest)
          | t :: _ => Except.error ⟨"expected curly braces", some t⟩
          | [] => Except.error ⟨"expected curly braces", none⟩
      | t :: _ => Except.error ⟨"expected enum", some t⟩
      | [] => Except.error ⟨"expected enum", none⟩

/-- Mirror of `parse_macro_input!(input as EnumGroupInput)`: the whole
token stream must be consumed. -/
def parseEnumGroupInputAll (ts : List Tok) : Except ParseErr EnumGroupInput :=
  match EnumGroupInput.parse ts with
  | Except.error e => Except.error e
  | Except.ok (i, []) => Except.ok i
  | Except.ok (_, t :: _) => Except.error ⟨"unexpected token", some t⟩

/-- Mirror of `format_ident!("{}Group", wire_name)`. -/
def groupEnumName (wire : String) : String := wire ++ "Group"

/-- One member of a generated enum: its attributes, name and payload. -/
structure VariantDecl : Type where
  attrs : List Attr
  name : String
  ty : Ty

/-- One generated enum declaration. -/
structure EnumDecl : Type where
  attrs : List Attr
  vis : Vis
  name : String
  variants : List VariantDecl

/-- One arm of the generated `into_group` match,
`Self::v(x) => WGroup::g(g::v(x))`; the datatype has no fallback arm
constructor, mirroring the generated match which has no default arm. -/
structure IntoGroupArm : Type where
  variantName : String
  groupName : String

/-- The generated inherent `impl #wire_name { #vis fn into_group ... }`. -/
structure InherentImpl : Type where
  selfName : String
  vis : Vis
  retName : String
  arms : List IntoGroupArm

/-- The generated `impl EnumGroup for #wire_name`: the associated `Group`
type and the inherent method the trait body delegates to. -/
structure TraitImpl : Type where
  selfName : String
  groupTy : String
  delegatesTo : String

/-- Everything `generate_enum_group` emits, in emission order. -/
structure GeneratedOutput : Type where
  groupEnums : List EnumDecl
  wireEnum : EnumDecl
  dispatchEnum : EnumDecl
  inherentImpl : InherentImpl
  traitImpl : TraitImpl

/-- The member a parsed variant contributes, `#(#v_attrs)* #v_name(#v_ty)`. -/
def variantDeclOf (v : ParsedVariant) : VariantDecl := ⟨v.attrs, v.name, v.ty⟩

/-- One generated group enum: declaration-level attributes and visibility,
the group name, and that group's variants in declaration order. -/
def genGroupEnum (attrs : List Attr) (vis : Vis) (g : ParsedGroup) : EnumDecl :=
  ⟨attrs, vis, g.name, g.variants.map variantDeclOf⟩

/-- The `all_variants` accumulation: every group's variants, in
group-declaration order then variant-declaration order. -/
def allVariants (gs : List ParsedGroup) : List VariantDecl :=
  gs.flatMap (fun g => g.variants.map variantDeclOf)

/-- The `into_group_arms` accumulation, one arm per variant in the same
order as `all_variants`. -/
def intoGroupArms (gs : List ParsedGroup) : List IntoGroupArm :=
  gs.flatMap (fun g => g.variants.map (fun v => ⟨v.name, g.name⟩))

/-- The names of all variants, flattened in declaration order. -/
def allVariantNames (gs : List ParsedGroup) : List String :=
  gs.flatMap (fun g => g.variants.map (fun v => v.name))

/-- The fixed `#[derive(Debug, Clone)]` placed on the dispatch enum. -/
def fixedDispatchAttr : Attr :=
  ⟨[Tok.ident "derive", Tok.parens [Tok.ident "Debug", Tok.comma, Tok.ident "Clone"]]⟩

/-- One dispatch-enum member, `#group_name(#group_name)`. -/
def dispatchVariantOf (g : ParsedGroup) : VariantDecl :=
  ⟨[], g.name, ⟨[Tok.ident g.name]⟩⟩

/-- Mirror of `generate_enum_group`: the group enums, the flat wire enum,
the dispatch enum, the inherent `into_group` and the trait impl. -/
def generate_enum_group (i : EnumGroupInput) : GeneratedOutput :=
  { groupEnums := i.groups.map (genGroupEnum i.attrs i.vis)
  , wireEnum := ⟨i.attrs, i.vis, i.name, allVariants i.groups⟩
  , dispatchEnum :=
      ⟨[fixedDispatchAttr], i.vis, groupEnumName i.name, i.groups.map dispatchVariantOf⟩
  , inherentImpl := ⟨i.name, i.vis, groupEnumName i.name, intoGroupArms i.groups⟩
  , traitImpl := ⟨i.name, groupEnumName i.name, i.name⟩ }

/-- Mirror of the `define_enum_group` entry point: parse, then generate;
a parse failure yields only the diagnostic. -/
def define_enum_group (ts : List Tok) : Except ParseErr GeneratedOutput :=
  match parseEnumGroupInputAll ts with
  | Except.error e => Except.error e
  | Except.ok i => Except.ok (generate_enum_group i)

/-- Mirror of `struct MatchArm { group_name, binding, body }`. -/
structure MatchArm : Type where
  group_name : String
  binding : List Tok
  body : List Tok

/-- The triple returned by the closure inside `parse_match_enum_group`. -/
structure MatchInput : Type where
  val : List Tok
  wire : String
  arms : List MatchArm

/-- Mirror of a `syn::Expr` parse under the opaque-expression convention:
one token tree, which must not be a comma or a fat arrow. -/
def parseExprAtom : List Tok → Except ParseErr (List Tok × List Tok)
  | Tok.comma :: _ => Except.error ⟨"expected an expression", some Tok.comma⟩
  | Tok.fatArrow :: _ => Except.error ⟨"expected an expression", some Tok.fatArrow⟩
  | t :: rest => Except.ok ([t], rest)
  | [] => Except.error ⟨"expected an expression", none⟩

/-- Mirror of `input.parse::<Token![,]>()?`. -/
def expectComma : List Tok → Except ParseErr (List Tok)
  | Tok.comma :: rest => Except.ok rest
  | t :: _ => Except.error ⟨"expected comma", some t⟩
  | [] => Except.error ⟨"expected comma", none⟩

/-- True of the token trees accepted as a one-token body expression. -/
def exprAtomOk : Tok → Bool
  | Tok.comma => false
  | Tok.fatArrow => false
  | _ => true

/-- Mirror of the arm loop in `parse_match_enum_group`: group name,
parenthesized binding captured whole (a raw token-stream parse that never
fails), a fat arrow, the body expression, then one optional comma. -/
def parseArmsLoop : Nat → List Tok → Except ParseErr (List MatchArm)
  | _, [] => Except.ok []
  | 0, _ :: _ => Except.error ⟨"exhausted fuel", none⟩
  | fuel + 1, t :: ts =>
    match parseIdent "expected identifier" (t :: ts) with
    | Except.error e => Except.error e
    | Except.ok (gname, ts1) =>
      match ts1 with
      | Tok.parens binding :: ts2 =>
        match ts2 with
        | Tok.fatArrow :: ts3 =>
          match parseExprAtom ts3 with
          | Except.error e => Except.error e
          | Except.ok (body, ts4) =>
            match parseArmsLoop fuel (consumeOptComma ts4) with
            | Except.error e => Except.error e
            | Except.ok arms => Except.ok (⟨gname, binding, body⟩ :: arms)
        | t2 :: _ => Except.error ⟨"expected fat arrow", some t2⟩
        | [] => Except.error ⟨"expected fat arrow", none⟩
      | t2 :: _ => Except.error ⟨"expected parentheses", some t2⟩
      | [] => Except.error ⟨"expected parentheses", none⟩

/-- Mirror of the parser closure in `parse_match_enum_group`: subject
expression, comma, wire name, comma, braced arm list. -/
def MatchInput.parse (ts : List Tok) : Except ParseErr (MatchInput × List Tok) :=
  match parseExprAtom ts with
  | Except.error e => Except.error e
  | Except.ok (val, ts1) =>
    match expectComma ts1 with
    | Except.error e => Except.error e
    | Except.ok ts2 =>
      match parseIdent "expected identifier" ts2 with
      | Except.error e => Except.error e
      | Except.ok (wire, ts3) =>
        match expectComma ts3 with
        | Except.error e => Except.error e
        | Except.ok ts4 =>
          match ts4 with
          | Tok.braces content :: rest =>
            match parseArmsLoop content.length content with
            | Except.error e => Except.error e
            | Except.ok arms => Except.ok (⟨val, wire, arms⟩, rest)
          | t :: _ => Except.error ⟨"expected curly braces", some t⟩
          | [] => Except.error ⟨"expected curly braces", none⟩

/-- Mirror of `parser.parse2(input)?`: the stream must be fully consumed. -/
def parseMatchInputAll (ts : List Tok) : Except ParseErr MatchInput :=
  match MatchInput.parse ts with
  | Except.error e => Except.error e
  | Except.ok (m, []) => Except.ok m
  | Except.ok (_, t :: _) => Except.error ⟨"unexpected token", some t⟩

/-- One emitted arm, `__EnumGroup__::#group_name(#binding) => #body`. -/
structure EmittedArm : Type where
  group_name : String
  binding : List Tok
  body : List Tok

/-- The emitted dispatch expression: a block that aliases
`<#wire as EnumGroup>::Group`, calls `into_group` on the subject value and
matches the result; a value-producing expression by construction. -/
structure MatchExpansion : Type where
  aliasOf : String
  scrutinee : List Tok
  scrutineeWire : String
  arms : List EmittedArm

/-- The quote step of `parse_match_enum_group`: arms are rebuilt verbatim
from each parsed arm's group name, binding and body, in order. -/
def build_match_expansion (m : MatchInput) : MatchExpansion :=
  ⟨m.wire, m.val, m.wire, m.arms.map (fun a => ⟨a.group_name, a.binding, a.body⟩)⟩

/-- Mirror of the `match_enum_group` entry point. -/
def match_enum_group (ts : List Tok) : Except ParseErr MatchExpansion :=
  match parseMatchInputAll ts with
  | Except.error e => Except.error e
  | Except.ok m => Except.ok (build_match_expansion m)

/-- A value of the flattened wire enum: active variant name and payload. -/
structure WireValue (α : Type) : Type where
  variant : String
  payload : α

/-- A value of a generated group enum. -/
structure GroupValue (α : Type) : Type where
  variant : String
  payload : α

/-- A value of the generated dispatch enum: active group member wrapping
a group value. -/
structure DispatchValue (α : Type) : Type where
  group : String
  value : GroupValue α

/-- Host-language semantics of the generated `into_group` match: the first
arm whose pattern variant matches fires and rewraps the payload; `none`
when no arm matches (the host compiler rejects such a match). -/
def runIntoGroup {α : Type} (arms : List IntoGroupArm) (v : WireValue α) :
    Option (DispatchValue α) :=
  match arms.find? (fun a => a.variantName == v.variant) with
  | some a => some ⟨a.groupName, ⟨a.variantName, v.payload⟩⟩
  | none => none

/-- The generated inherent `into_group` method on the wire enum. -/
def wire_into_group {α : Type} (i : EnumGroupInput) (v : WireValue α) :
    Option (DispatchValue α) :=
  runIntoGroup (generate_enum_group i).inherentImpl.arms v

/-- The generated trait method: its body is exactly
`#wire_name::into_group(self)`, the inherent method. -/
def trait_into_group {α : Type} (i : EnumGroupInput) (v : WireValue α) :
    Option (DispatchValue α) :=
  wire_into_group i v

/-- Host-language semantics of the emitted dispatch expression: convert
the subject through the generated `into_group`, then the first arm whose
group name matches fires; the result is that arm's body together with the
group value its binding receives. -/
def dispatchEval {α : Type} (i : EnumGroupInput) (e : MatchExpansion)
    (v : WireValue α) : Option (List Tok × GroupValue α) :=
  match trait_into_group i v with
  | none => none
  | some d =>
    match e.arms.find? (fun a => a.group_name == d.group) with
    | some a => some (a.body, d.value)
    | none => none

/-- Concrete-syntax rendering of one attribute. -/
def renderAttr (a : Attr) : List Tok := [Tok.pound, Tok.brackets a.toks]

/-- Concrete-syntax rendering of one variant, `Metadata* Name '(' Type ')'`. -/
def renderVariant (v : ParsedVariant) : List Tok :=
  v.attrs.flatMap renderAttr ++ [Tok.ident v.name, Tok.parens v.ty.toks]

/-- An optional single comma. -/
def sepIf (b : Bool) : List Tok := if b then [Tok.comma] else []

/-- A variant list with a chosen comma pattern: the n-th flag says whether
one comma follows the n-th variant (missing flags mean no comma). -/
def renderVariants : List ParsedVariant → List Bool → List Tok
  | [], _ => []
  | v :: vs, [] => renderVariant v ++ renderVariants vs []
  | v :: vs, s :: ss => renderVariant v ++ (sepIf s ++ renderVariants vs ss)

/-- Concrete-syntax rendering of one group with a chosen inner comma
pattern, `Name '{' Variant... '}'`. -/
def renderGroupWith (g : ParsedGroup) (inner : List Bool) : List Tok :=
  [Tok.ident g.name, Tok.braces (renderVariants g.variants inner)]

/-- A group list, each group paired with its inner comma pattern, with a
chosen comma pattern between and after groups. -/
def renderGroupsWith : List (ParsedGroup × List Bool) → List Bool → List Tok
  | [], _ => []
  | p :: ps, [] => renderGroupWith p.1 p.2 ++ renderGroupsWith ps []
  | p :: ps, s :: ss => renderGroupWith p.1 p.2 ++ (sepIf s ++ renderGroupsWith ps ss)

/-- Concrete-syntax rendering of one dispatch arm,
`GroupName '(' Binding ')' '=>' Body`. -/
def renderArm (a : MatchArm) : List Tok :=
  [Tok.ident a.group_name, Tok.parens a.binding, Tok.fatArrow] ++ a.body

/-- An arm list with a chosen comma pattern. -/
def renderArms : List MatchArm → List Bool → List Tok
  | [], _ => []
  | a :: rest, [] => renderArm a ++ renderArms rest []
  | a :: rest, s :: ss => renderArm a ++ (sepIf s ++ renderArms rest ss)

/-- The worked example of the spec: wire type `WireMsg` with groups
`Protocol { A(MsgA), B(MsgB) }` and `Business { C(MsgC) }`. -/
def vA : ParsedVariant := ⟨[], "A", ⟨[Tok.ident "MsgA"]⟩⟩

/-- Variant `B(MsgB)` of the worked example. -/
def vB : ParsedVariant := ⟨[], "B", ⟨[Tok.ident "MsgB"]⟩⟩

/-- Variant `C(MsgC)` of the worked example. -/
def vC : ParsedVariant := ⟨[], "C", ⟨[Tok.ident "MsgC"]⟩⟩

/-- Group `Protocol` of the worked example. -/
def gProtocol : ParsedGroup := ⟨"Protocol", [vA, vB]⟩

/-- Group `Business` of the worked example. -/
def gBusiness : ParsedGroup := ⟨"Business", [vC]⟩

/-- The parsed worked-example declaration. -/
def exInput : EnumGroupInput := ⟨[], Vis.inherited, "WireMsg", [gProtocol, gBusiness]⟩

/-- The braced arm list `Protocol(p) => 1, Business(b) => 2` as tokens. -/
def exArmToks : List Tok :=
  [Tok.ident "Protocol", Tok.parens [Tok.ident "p"], Tok.fatArrow, Tok.lit "1", Tok.comma,
   Tok.ident "Business", Tok.parens [Tok.ident "b"], Tok.fatArrow, Tok.lit "2"]

/-- The full dispatch-expression input `msg, WireMsg, { ... }` as tokens. -/
def exMatchToks : List Tok :=
  [Tok.ident "msg", Tok.comma, Tok.ident "WireMsg", Tok.comma, Tok.braces exArmToks]

/-- The parsed form of `exMatchToks`. -/
def exMatchInput : MatchInput :=
  ⟨[Tok.ident "msg"], "WireMsg",
   [⟨"Protocol", [Tok.ident "p"], [Tok.lit "1"]⟩,
    ⟨"Business", [Tok.ident "b"], [Tok.lit "2"]⟩]⟩

/-- C3: declaration order is preserved everywhere: the n-th group yields
the n-th dispatch member and the n-th generated group enum, the n-th
variant of a group yields the n-th member of that group's enum, and the
wire enum's members are all groups' variants concatenated in
group-declaration then variant-declaration order, with no sorting,
deduplication or collision detection (the equalities hold for every
input, colliding names included). -/
theorem c3_declaration_order (i : EnumGroupInput) :
    (∀ n : Nat, ((generate_enum_group i).dispatchEnum.variants)[n]?
        = (i.groups[n]?).map dispatchVariantOf)
  ∧ (∀ n : Nat, ((generate_enum_group i).groupEnums)[n]?
        = (i.groups[n]?).map (genGroupEnum i.attrs i.vis))
  ∧ (∀ g : ParsedGroup, ∀ n : Nat, ((genGroupEnum i.attrs i.vis g).variants)[n]?
        = (g.variants[n]?).map variantDeclOf)
  ∧ (generate_enum_group i).wireEnum.variants
      = i.groups.flatMap (fun g => g.variants.map variantDeclOf) := by
  refine ⟨fun n => ?_, fun n => ?_, fun g n => ?_, rfl⟩ <;>
    simp [generate_enum_group, genGroupEnum]

/-- C5: a group with zero variants parses successfully, contributes zero
members to the wire enum and zero arms to the conversion match, and still
contributes exactly one member to the dispatch enum. -/
theorem c5_empty_group (attrs : List Attr) (vis : Vis) (wname gname : String)
    (pre post : List ParsedGroup) :
    ParsedGroup.parse [Tok.ident gname, Tok.braces []] = Except.ok (⟨gname, []⟩, [])
  ∧ (generate_enum_group ⟨attrs, vis, wname, pre ++ ⟨gname, []⟩ :: post⟩).wireEnum.variants
      = allVariants pre ++ allVariants post
  ∧ (generate_enum_group ⟨attrs, vis, wname, pre ++ ⟨gname, []⟩ :: post⟩).inherentImpl.arms
      = intoGroupArms pre ++ intoGroupArms post
  ∧ (generate_enum_group ⟨attrs, vis, wname, pre ++ ⟨gname, []⟩ :: post⟩).dispatchEnum.variants
      = pre.map dispatchVariantOf
          ++ dispatchVariantOf ⟨gname, []⟩ :: post.map dispatchVariantOf := by
  refine ⟨rfl, ?_, ?_, ?_⟩ <;> simp [generate_enum_group, allVariants, intoGroupArms]

/-- C6: the dispatch enum is named exactly `<WireName>Group`, carries the
fixed `#[derive(Debug, Clone)]` whatever the declaration requested, and
uses the declaration's visibility; the declaration-level attributes are
not replicated onto it. -/
theorem c6_dispatch_enum_fixed (i : EnumGroupInput) :
    (generate_enum_group i).dispatchEnum.name = groupEnumName i.name
  ∧ groupEnumName i.name = i.name ++ "Group"
  ∧ (generate_enum_group i).dispatchEnum.attrs = [fixedDispatchAttr]
  ∧ (generate_enum_group i).dispatchEnum.vis = i.vis := ⟨rfl, rfl, rfl, rfl⟩

/-- C7: declaration-level attributes appear unmodified on every group enum
and on the wire enum; each variant's own attributes appear exactly on its
occurrence in its group enum and in the wire enum; the declaration's
visibility is applied to every generated type and to the conversion
method. -/
theorem c7_metadata_propagation (i : EnumGroupInput) :
    (∀ e ∈ (generate_enum_group i).groupEnums, e.attrs = i.attrs ∧ e.vis = i.vis)
  ∧ (generate_enum_group i).wireEnum.attrs = i.attrs
  ∧ (generate_enum_group i).wireEnum.vis = i.vis
  ∧ (generate_enum_group i).dispatchEnum.vis = i.vis
  ∧ (generate_enum_group i).inherentImpl.vis = i.vis
  ∧ (∀ g ∈ i.groups, (genGroupEnum i.attrs i.vis g).variants = g.variants.map variantDeclOf)
  ∧ (generate_enum_group i).wireEnum.variants
      = i.groups.flatMap (fun g => g.variants.map variantDeclOf) := by
  refine ⟨?_, rfl, rfl, rfl, rfl, fun g _ => rfl, rfl⟩
  intro e he
  simp only [generate_enum_group, List.mem_map] at he
  obtain ⟨g, _, rfl⟩ := he
  exact ⟨rfl, rfl⟩

/-- Witness for C7 at the worked example's `Protocol` group. -/
theorem c7_witness_concrete :
    ((genGroupEnum exInput.attrs exInput.vis gProtocol).attrs = exInput.attrs
      ∧ (genGroupEnum exInput.attrs exInput.vis gProtocol).vis = exInput.vis)
  ∧ (genGroupEnum exInput.attrs exInput.vis gProtocol).variants
      = gProtocol.variants.map variantDeclOf :=
  ⟨(c7_metadata_propagation exInput).1 (genGroupEnum exInput.attrs exInput.vis gProtocol)
      (List.mem_cons_self _ _),
   (c7_metadata_propagation exInput).2.2.2.2.2.1 gProtocol (List.mem_cons_self _ _)⟩

/-- C8: the generated trait implementation's `into_group` delegates to the
inherent method, so both return the same dispatch value on every wire
value, and its associated `Group` type is the dispatch enum. -/
theorem c8_trait_delegates (i : EnumGroupInput) {α : Type} (v : WireValue α) :
    trait_into_group i v = wire_into_group i v
  ∧ (generate_enum_group i).traitImpl.delegatesTo
      = (generate_enum_group i).inherentImpl.selfName
  ∧ (generate_enum_group i).traitImpl.groupTy = groupEnumName i.name := ⟨rfl, rfl, rfl⟩

/-- C9: generation is all-or-nothing for both macros: a parse failure
yields exactly the diagnostic (expected construct plus offending token)
and no generated output, a parse success yields the full output and no
diagnostic; concrete malformed inputs (empty declaration name, missing
braces, empty payload type, malformed arm) each produce the matching
diagnostic. -/
theorem c9_all_or_nothing :
    (∀ ts : List Tok,
      (∃ e, parseEnumGroupInputAll ts = Except.error e
          ∧ define_enum_group ts = Except.error e)
      ∨ (∃ i, parseEnumGroupInputAll ts = Except.ok i
          ∧ define_enum_group ts = Except.ok (generate_enum_group i)))
  ∧ (∀ ts : List Tok,
      (∃ e, parseMatchInputAll ts = Except.error e
          ∧ match_enum_group ts = Except.error e)
      ∨ (∃ m, parseMatchInputAll ts = Except.ok m
          ∧ match_enum_group ts = Except.ok (build_match_expansion m)))
  ∧ parseEnumGroupInputAll [Tok.kwEnum, Tok.braces []]
      = Except.error ⟨"expected identifier", some (Tok.braces [])⟩
  ∧ parseEnumGroupInputAll [Tok.kwEnum, Tok.ident "W"]
      = Except.error ⟨"expected curly braces", none⟩
  ∧ define_enum_group [Tok.kwEnum, Tok.ident "W",
        Tok.braces [Tok.ident "G", Tok.braces [Tok.ident "A", Tok.parens []]]]
      = Except.error ⟨"expected type", none⟩
  ∧ match_enum_group [Tok.ident "v", Tok.comma, Tok.ident "W", Tok.comma,
        Tok.braces [Tok.ident "G", Tok.comma]]
      = Except.error ⟨"expected parentheses", some Tok.comma⟩ := by
  refine ⟨fun ts => ?_, fun ts => ?_, rfl, rfl, rfl, rfl⟩
  · cases h : parseEnumGroupInputAll ts with
    | error e => exact Or.inl ⟨e, rfl, by simp [define_enum_group, h]⟩
    | ok i => exact Or.inr ⟨i, rfl, by simp [define_enum_group, h]⟩
  · cases h : parseMatchInputAll ts with
    | error e => exact Or.inl ⟨e, rfl, by simp [match_enum_group, h]⟩
    | ok m => exact Or.inr ⟨m, rfl, by simp [match_enum_group, h]⟩

/-- C10: a declaration with an empty brace body (zero groups) is accepted
by the parser and generates a wire enum with zero members, a dispatch enum
with zero members and a conversion match with zero arms. -/
theorem c10_zero_groups_accepted (w : String) :
    parseEnumGroupInputAll [Tok.kwEnum, Tok.ident w, Tok.braces []]
      = Except.ok ⟨[], Vis.inherited, w, []⟩
  ∧ (generate_enum_group ⟨[], Vis.inherited, w, []⟩).wireEnum.variants = []
  ∧ (generate_enum_group ⟨[], Vis.inherited, w, []⟩).dispatchEnum.variants = []
  ∧ (generate_enum_group ⟨[], Vis.inherited, w, []⟩).inherentImpl.arms = []
  ∧ (generate_enum_group ⟨[], Vis.inherited, w, []⟩).groupEnums = [] :=
  ⟨rfl, rfl, rfl, rfl, rfl⟩

/-- C2: the emitted dispatch expression aliases the wire type's associated
group type, converts the subject with `into_group` and matches it against
arms rebuilt verbatim from the parsed arms; on the worked example,
dispatching a value built from `B` through `Protocol(p) => 1` and
`Business(b) => 2` selects body `1` with the group value bound, and a
value built from `C` selects body `2`. -/
theorem c2_dispatch_expression :
    (∀ m : MatchInput,
      build_match_expansion m
        = ⟨m.wire, m.val, m.wire, m.arms.map (fun a => ⟨a.group_name, a.binding, a.body⟩)⟩)
  ∧ match_enum_group exMatchToks = Except.ok (build_match_expansion exMatchInput)
  ∧ (∀ {α : Type} (p : α),
      dispatchEval exInput (build_match_expansion exMatchInput) ⟨"B", p⟩
        = some ([Tok.lit "1"], ⟨"B", p⟩)
      ∧ dispatchEval exInput (build_match_expansion exMatchInput) ⟨"C", p⟩
        = some ([Tok.lit "2"], ⟨"C", p⟩)) :=
  ⟨fun _ => rfl, rfl, fun _ => ⟨rfl, rfl⟩⟩

/-- C4 counterexample: one trailing comma after the last variant parses,
but two consecutive commas in the same position are rejected with a syntax
error, refuting "any number of consecutive commas". -/
theorem c4_counterexample_double_comma :
    parseEnumGroupInputAll [Tok.kwEnum, Tok.ident "W",
        Tok.braces [Tok.ident "G",
          Tok.braces [Tok.ident "A", Tok.parens [Tok.ident "T"], Tok.comma]]]
      = Except.ok ⟨[], Vis.inherited, "W", [⟨"G", [⟨[], "A", ⟨[Tok.ident "T"]⟩⟩]⟩]⟩
  ∧ parseEnumGroupInputAll [Tok.kwEnum, Tok.ident "W",
        Tok.braces [Tok.ident "G",
          Tok.braces [Tok.ident "A", Tok.parens [Tok.ident "T"], Tok.comma, Tok.comma]]]
      = Except.error ⟨"expected identifier", some Tok.comma⟩ := ⟨rfl, rfl⟩

theorem mem_allVariantNames {gs : List ParsedGroup} {g : ParsedGroup} {v : ParsedVariant}
    (hg : g ∈ gs) (hv : v ∈ g.variants) : v.name ∈ allVariantNames gs := by
  simp only [allVariantNames, List.mem_flatMap]
  exact ⟨g, hg, List.mem_map.mpr ⟨v, hv, rfl⟩⟩

theorem find?_intoGroupArms_of_mem {gname : String} {vs : List ParsedVariant}
    {v : ParsedVariant} (hv : v ∈ vs) :
    (vs.map (fun u => (⟨u.name, gname⟩ : IntoGroupArm))).find?
        (fun a => a.variantName == v.name) = some ⟨v.name, gname⟩ := by
  have hs : ((vs.map fun u => (⟨u.name, gname⟩ : IntoGroupArm)).find?
      (fun a => a.variantName == v.name)).isSome := by
    rw [List.find?_isSome]
    exact ⟨⟨v.name, gname⟩, List.mem_map.mpr ⟨v, hv, rfl⟩, by simp⟩
  obtain ⟨a, ha⟩ := Option.isSome_iff_exists.mp hs
  have hpa := List.find?_some ha
  have hma := List.mem_of_find?_eq_some ha
  obtain ⟨u, _, rfl⟩ := List.mem_map.mp hma
  simp only [beq_iff_eq] at hpa
  rw [ha, hpa]

theorem find?_intoGroupArms_none {gname : String} {vs : List ParsedVariant} {n : String}
    (h : n ∉ vs.map (fun v => v.name)) :
    (vs.map (fun u => (⟨u.name, gname⟩ : IntoGroupArm))).find?
        (fun a => a.variantName == n) = none := by
  rw [List.find?_eq_none]
  intro a ha
  obtain ⟨u, hu, rfl⟩ := List.mem_map.mp ha
  simp only [beq_iff_eq]
  intro heq
  exact h (List.mem_map.mpr ⟨u, hu, heq⟩)

theorem find?_intoGroupArms (gs : List ParsedGroup) (g : ParsedGroup) (v : ParsedVariant)
    (hg : g ∈ gs) (hv : v ∈ g.variants) (hnd : (allVariantNames gs).Nodup) :
    (intoGroupArms gs).find? (fun a => a.variantName == v.name)
      = some ⟨v.name, g.name⟩ := by
  induction gs with
  | nil => cases hg
  | cons g0 gs2 ih =>
    have hsplit : intoGroupArms (g0 :: gs2)
        = g0.variants.map (fun u => (⟨u.name, g0.name⟩ : IntoGroupArm))
            ++ intoGroupArms gs2 := by
      simp [intoGroupArms]
    have hnds : allVariantNames (g0 :: gs2)
        = g0.variants.map (fun v => v.name) ++ allVariantNames gs2 := by
      simp [allVariantNames]
    rw [hnds, List.nodup_append] at hnd
    rw [hsplit, List.find?_append]
    rcases List.mem_cons.mp hg with hEq | hg2
    · subst hEq
      rw [find?_intoGroupArms_of_mem hv]
      rfl
    · have hnotin : v.name ∉ g0.variants.map (fun v => v.name) := by
        intro hmem
        exact hnd.2.2 hmem (mem_allVariantNames hg2 hv)
      rw [find?_intoGroupArms_none hnotin, ih hg2 hnd.2.1]
      rfl

/-- C1: for every declaration whose flattened variant names are distinct
(the only declarations whose generated output the host compiler accepts),
converting the wire value built from variant `V` of group `G` with payload
`p` yields the dispatch value with active member `G` wrapping the group
value with active member `V` wrapping `p` unchanged; the generated match
has exactly one arm per flattened variant, in order, with no fallback arm
(the arm datatype has none), so the conversion is total over the wire
enum's variants. -/
theorem c1_into_group_roundtrip (i : EnumGroupInput) (g : ParsedGroup) (v : ParsedVariant)
    {α : Type} (p : α) (hg : g ∈ i.groups) (hv : v ∈ g.variants)
    (hnd : (allVariantNames i.groups).Nodup) :
    wire_into_group i ⟨v.name, p⟩ = some ⟨g.name, ⟨v.name, p⟩⟩
  ∧ (intoGroupArms i.groups).map (fun a => a.variantName) = allVariantNames i.groups
  ∧ ∀ w : WireValue α, w.variant ∈ allVariantNames i.groups
      → (wire_into_group i w).isSome := by
  refine ⟨?_, ?_, ?_⟩
  · unfold wire_into_group runIntoGroup
    rw [show (generate_enum_group i).inherentImpl.arms = intoGroupArms i.groups from rfl]
    rw [find?_intoGroupArms i.groups g v hg hv hnd]
  · simp only [intoGroupArms, allVariantNames, List.map_flatMap]
    congr 1
    funext a
    simp [Function.comp]
  · intro w hw
    unfold wire_into_group runIntoGroup
    rw [show (generate_enum_group i).inherentImpl.arms = intoGroupArms i.groups from rfl]
    simp only [allVariantNames, List.mem_flatMap, List.mem_map] at hw
    obtain ⟨g2, hg2, v2, hv2, hname⟩ := hw
    have hmem : (⟨v2.name, g2.name⟩ : IntoGroupArm) ∈ intoGroupArms i.groups := by
      simp only [intoGroupArms, List.mem_flatMap, List.mem_map]
      exact ⟨g2, hg2, v2, hv2, rfl⟩
    have hs : ((intoGroupArms i.groups).find?
        (fun a => a.variantName == w.variant)).isSome := by
      rw [List.find?_isSome]
      exact ⟨⟨v2.name, g2.name⟩, hmem, by simp [hname]⟩
    obtain ⟨a, ha⟩ := Option.isSome_iff_exists.mp hs
    rw [ha]
    rfl

/-- Witness for C1 at the worked example: variant `C` of group `Business`
with payload `7`. -/
theorem c1_witness_concrete :
    wire_into_group exInput ⟨vC.name, (7 : Nat)⟩ = some ⟨gBusiness.name, ⟨vC.name, 7⟩⟩
  ∧ (intoGroupArms exInput.groups).map (fun a => a.variantName)
      = allVariantNames exInput.groups
  ∧ ∀ w : WireValue Nat, w.variant ∈ allVariantNames exInput.groups
      → (wire_into_group exInput w).isSome :=
  c1_into_group_roundtrip exInput gBusiness vC 7
    (List.mem_cons_of_mem _ (List.mem_cons_self _ _))
    (List.mem_cons_self _ _)
    (by decide)

theorem renderVariant_ne_nil (v : ParsedVariant) : renderVariant v ≠ [] := by
  simp [renderVariant]

theorem append_ne_nil_of_left {l1 l2 : List Tok} (h : l1 ≠ []) : l1 ++ l2 ≠ [] := by
  cases l1 with
  | nil => exact absurd rfl h
  | cons a l => simp

theorem parseTypeAll_ne_nil (ts : List Tok) (h : ts ≠ []) :
    parseTypeAll ts = Except.ok ⟨ts⟩ := by
  cases ts with
  | nil => exact absurd rfl h
  | cons t ts2 => rfl

theorem parseOuterAttrs_render (attrs : List Attr) (n : String) (ts : List Tok) :
    parseOuterAttrs (attrs.flatMap renderAttr ++ Tok.ident n :: ts)
      = Except.ok (attrs, Tok.ident n :: ts) := by
  induction attrs with
  | nil => rfl
  | cons a rest ih =>
    have e1 : ((a :: rest).flatMap renderAttr) ++ Tok.ident n :: ts
        = Tok.pound :: Tok.brackets a.toks
            :: (rest.flatMap renderAttr ++ Tok.ident n :: ts) := by
      simp [renderAttr]
    rw [e1]
    simp only [parseOuterAttrs]
    rw [ih]

theorem parseVariant_render (v : ParsedVariant) (rest : List Tok)
    (h : v.ty.toks ≠ []) :
    ParsedVariant.parse (renderVariant v ++ rest) = Except.ok (v, rest) := by
  have e1 : renderVariant v ++ rest
      = v.attrs.flatMap renderAttr ++ Tok.ident v.name :: Tok.parens v.ty.toks :: rest := by
    simp [renderVariant]
  rw [e1]
  unfold ParsedVariant.parse
  rw [parseOuterAttrs_render]
  simp only [parseIdent]
  rw [parseTypeAll_ne_nil v.ty.toks h]

theorem consumeOptComma_renderVariant (v : ParsedVariant) (ts : List Tok) :
    consumeOptComma (renderVariant v ++ ts) = renderVariant v ++ ts := by
  rcases v with ⟨attrs, name, ty⟩
  cases attrs with
  | nil => rfl
  | cons a rest => rfl

theorem consumeOptComma_renderVariants (vs : List ParsedVariant) (ss : List Bool) :
    consumeOptComma (renderVariants vs ss) = renderVariants vs ss := by
  cases vs with
  | nil => cases ss <;> rfl
  | cons v vs2 =>
    cases ss with
    | nil => exact consumeOptComma_renderVariant v _
    | cons s ss2 => exact consumeOptComma_renderVariant v _

theorem parseVariantsLoop_step (fuel : Nat) (ts rest : List Tok) (v : ParsedVariant)
    (h : ParsedVariant.parse ts = Except.ok (v, rest)) (hne : ts ≠ []) :
    parseVariantsLoop (fuel + 1) ts
      = match parseVariantsLoop fuel (consumeOptComma rest) with
        | Except.error e => Except.error e
        | Except.ok vs => Except.ok (v :: vs) := by
  cases ts with
  | nil => exact absurd rfl hne
  | cons t ts2 => simp only [parseVariantsLoop, h]

theorem parseVariantsLoop_render (vs : List ParsedVariant) (ss : List Bool) (fuel : Nat)
    (hty : ∀ v ∈ vs, v.ty.toks ≠ []) (hfuel : vs.length ≤ fuel) :
    parseVariantsLoop fuel (renderVariants vs ss) = Except.ok vs := by
  induction vs generalizing ss fuel with
  | nil =>
    have e : renderVariants [] ss = [] := by cases ss <;> rfl
    rw [e]
    cases fuel <;> rfl
  | cons v vs2 ih =>
    cases fuel with
    | zero => simp at hfuel
    | succ fuel2 =>
      have hv := hty v (List.mem_cons_self v vs2)
      have hrest : ∀ u ∈ vs2, u.ty.toks ≠ [] := fun u hu => hty u (List.mem_cons_of_mem _ hu)
      have hf2 : vs2.length ≤ fuel2 := by
        simp only [List.length_cons] at hfuel
        omega
      cases ss with
      | nil =>
        have e : renderVariants (v :: vs2) [] = renderVariant v ++ renderVariants vs2 [] := rfl
        rw [e, parseVariantsLoop_step fuel2 _ _ v (parseVariant_render v _ hv)
            (append_ne_nil_of_left (renderVariant_ne_nil v))]
        rw [consumeOptComma_renderVariants, ih [] fuel2 hrest hf2]
      | cons s ss2 =>
        have e : renderVariants (v :: vs2) (s :: ss2)
            = renderVariant v ++ (sepIf s ++ renderVariants vs2 ss2) := rfl
        have hc : consumeOptComma (sepIf s ++ renderVariants vs2 ss2)
            = renderVariants vs2 ss2 := by
          cases s with
          | false => exact consumeOptComma_renderVariants vs2 ss2
          | true => rfl
        rw [e, parseVariantsLoop_step fuel2 _ _ v (parseVariant_render v _ hv)
            (append_ne_nil_of_left (renderVariant_ne_nil v))]
        rw [hc, ih ss2 fuel2 hrest hf2]

theorem renderVariants_length_le (vs : List ParsedVariant) (ss : List Bool) :
    vs.length ≤ (renderVariants vs ss).length := by
  induction vs generalizing ss with
  | nil =>
    have e : renderVariants [] ss = [] := by cases ss <;> rfl
    simp [e]
  | cons v vs2 ih =>
    have h1 : 0 < (renderVariant v).length := List.length_pos.mpr (renderVariant_ne_nil v)
    cases ss with
    | nil =>
      have e : renderVariants (v :: vs2) [] = renderVariant v ++ renderVariants vs2 [] := rfl
      have h2 := ih ([] : List Bool)
      rw [e, List.length_append, List.length_cons]
      omega
    | cons s ss2 =>
      have e : renderVariants (v :: vs2) (s :: ss2)
          = renderVariant v ++ (sepIf s ++ renderVariants vs2 ss2) := rfl
      have h2 := ih ss2
      rw [e, List.length_append, List.length_append, List.length_cons]
      omega

theorem parseGroup_render (g : ParsedGroup) (inner : List Bool) (rest : List Tok)
    (hty : ∀ v ∈ g.variants, v.ty.toks ≠ []) :
    ParsedGroup.parse (renderGroupWith g inner ++ rest) = Except.ok (g, rest) := by
  have e : renderGroupWith g inner ++ rest
      = Tok.ident g.name :: Tok.braces (renderVariants g.variants inner) :: rest := rfl
  rw [e]
  unfold ParsedGroup.parse
  simp only [parseIdent]
  rw [parseVariantsLoop_render g.variants inner _ hty (renderVariants_length_le _ _)]

theorem consumeOptComma_renderGroupsWith (ps : List (ParsedGroup × List Bool))
    (ss : List Bool) :
    consumeOptComma (renderGroupsWith ps ss) = renderGroupsWith ps ss := by
  cases ps with
  | nil => cases ss <;> rfl
  | cons p ps2 => cases ss <;> rfl

theorem parseGroupsLoop_step (fuel : Nat) (ts rest : List Tok) (g : ParsedGroup)
    (h : ParsedGroup.parse ts = Except.ok (g, rest)) (hne : ts ≠ []) :
    parseGroupsLoop (fuel + 1) ts
      = match parseGroupsLoop fuel (consumeOptComma rest) with
        | Except.error e => Except.error e
        | Except.ok gs => Except.ok (g :: gs) := by
  cases ts with
  | nil => exact absurd rfl hne
  | cons t ts2 => simp only [parseGroupsLoop, h]

theorem renderGroupWith_ne_nil (g : ParsedGroup) (inner : List Bool) :
    renderGroupWith g inner ≠ [] := by
  simp [renderGroupWith]

theorem parseGroupsLoop_render (ps : List (ParsedGroup × List Bool)) (ss : List Bool)
    (fuel : Nat) (hty : ∀ p ∈ ps, ∀ v ∈ p.1.variants, v.ty.toks ≠ [])
    (hfuel : ps.length ≤ fuel) :
    parseGroupsLoop fuel (renderGroupsWith ps ss) = Except.ok (ps.map Prod.fst) := by
  induction ps generalizing ss fuel with
  | nil =>
    have e : renderGroupsWith [] ss = [] := by cases ss <;> rfl
    rw [e]
    cases fuel <;> rfl
  | cons p ps2 ih =>
    cases fuel with
    | zero => simp at hfuel
    | succ fuel2 =>
      have hp := hty p (List.mem_cons_self p ps2)
      have hrest : ∀ q ∈ ps2, ∀ v ∈ q.1.variants, v.ty.toks ≠ [] :=
        fun q hq => hty q (List.mem_cons_of_mem _ hq)
      have hf2 : ps2.length ≤ fuel2 := by
        simp only [List.length_cons] at hfuel
        omega
      cases ss with
      | nil =>
        have e : renderGroupsWith (p :: ps2) []
            = renderGroupWith p.1 p.2 ++ renderGroupsWith ps2 [] := rfl
        rw [e, parseGroupsLoop_step fuel2 _ _ p.1 (parseGroup_render p.1 p.2 _ hp)
            (append_ne_nil_of_left (renderGroupWith_ne_nil p.1 p.2))]
        rw [consumeOptComma_renderGroupsWith, ih [] fuel2 hrest hf2]
        rfl
      | cons s ss2 =>
        have e : renderGroupsWith (p :: ps2) (s :: ss2)
            = renderGroupWith p.1 p.2 ++ (sepIf s ++ renderGroupsWith ps2 ss2) := rfl
        have hc : consumeOptComma (sepIf s ++ renderGroupsWith ps2 ss2)
            = renderGroupsWith ps2 ss2 := by
          cases s with
          | false => exact consumeOptComma_renderGroupsWith ps2 ss2
          | true => rfl
        rw [e, parseGroupsLoop_step fuel2 _ _ p.1 (parseGroup_render p.1 p.2 _ hp)
            (append_ne_nil_of_left (renderGroupWith_ne_nil p.1 p.2))]
        rw [hc, ih ss2 fuel2 hrest hf2]
        rfl

theorem parseExprAtom_atom (t : Tok) (rest : List Tok) (h : exprAtomOk t = true) :
    parseExprAtom (t :: rest) = Except.ok ([t], rest) := by
  cases t <;> first | rfl | simp [exprAtomOk] at h

theorem consumeOptComma_renderArms (arms : List MatchArm) (ss : List Bool) :
    consumeOptComma (renderArms arms ss) = renderArms arms ss := by
  cases arms with
  | nil => cases ss <;> rfl
  | cons a rest => cases ss <;> rfl

theorem parseArmsLoop_step (fuel : Nat) (a : MatchArm) (t : Tok) (rest : List Tok)
    (hbody : a.body = [t]) (ht : exprAtomOk t = true) :
    parseArmsLoop (fuel + 1) (renderArm a ++ rest)
      = match parseArmsLoop fuel (consumeOptComma rest) with
        | Except.error e => Except.error e
        | Except.ok arms => Except.ok (a :: arms) := by
  have e : renderArm a ++ rest
      = Tok.ident a.group_name :: Tok.parens a.binding :: Tok.fatArrow :: (a.body ++ rest) := by
    simp [renderArm]
  rw [e, hbody]
  simp only [parseArmsLoop, parseIdent, List.cons_append, List.nil_append]
  rw [parseExprAtom_atom t rest ht, ← hbody]

theorem parseArmsLoop_render (arms : List MatchArm) (ss : List Bool) (fuel : Nat)
    (hbody : ∀ a ∈ arms, ∃ t, a.body = [t] ∧ exprAtomOk t = true)
    (hfuel : arms.length ≤ fuel) :
    parseArmsLoop fuel (renderArms arms ss) = Except.ok arms := by
  induction arms generalizing ss fuel with
  | nil =>
    have e : renderArms [] ss = [] := by cases ss <;> rfl
    rw [e]
    cases fuel <;> rfl
  | cons a rest ih =>
    cases fuel with
    | zero => simp at hfuel
    | succ fuel2 =>
      obtain ⟨t, hb, ht⟩ := hbody a (List.mem_cons_self a rest)
      have hrest : ∀ b ∈ rest, ∃ u, b.body = [u] ∧ exprAtomOk u = true :=
        fun b hbm => hbody b (List.mem_cons_of_mem _ hbm)
      have hf2 : rest.length ≤ fuel2 := by
        simp only [List.length_cons] at hfuel
        omega
      cases ss with
      | nil =>
        have e : renderArms (a :: rest) [] = renderArm a ++ renderArms rest [] := rfl
        rw [e, parseArmsLoop_step fuel2 a t _ hb ht]
        rw [consumeOptComma_renderArms, ih [] fuel2 hrest hf2]
      | cons s ss2 =>
        have e : renderArms (a :: rest) (s :: ss2)
            = renderArm a ++ (sepIf s ++ renderArms rest ss2) := rfl
        have hc : consumeOptComma (sepIf s ++ renderArms rest ss2) = renderArms rest ss2 := by
          cases s with
          | false => exact consumeOptComma_renderArms rest ss2
          | true => rfl
        rw [e, parseArmsLoop_step fuel2 a t _ hb ht]
        rw [hc, ih ss2 fuel2 hrest hf2]

/-- C4 as amended: at every separator position (between variants, between
groups, between dispatch arms, and after the final item of each list) the
parser accepts zero commas or exactly one comma, never requires one, and
every pattern of single optional commas parses to the same AST; a second
consecutive comma is a syntax error (see the counterexample). -/
theorem c4_amended_single_optional_commas :
    (∀ (vs : List ParsedVariant) (ss : List Bool) (fuel : Nat),
      (∀ v ∈ vs, v.ty.toks ≠ []) → vs.length ≤ fuel →
      parseVariantsLoop fuel (renderVariants vs ss) = Except.ok vs)
  ∧ (∀ (ps : List (ParsedGroup × List Bool)) (ss : List Bool) (fuel : Nat),
      (∀ p ∈ ps, ∀ v ∈ p.1.variants, v.ty.toks ≠ []) → ps.length ≤ fuel →
      parseGroupsLoop fuel (renderGroupsWith ps ss) = Except.ok (ps.map Prod.fst))
  ∧ (∀ (arms : List MatchArm) (ss : List Bool) (fuel : Nat),
      (∀ a ∈ arms, ∃ t, a.body = [t] ∧ exprAtomOk t = true) → arms.length ≤ fuel →
      parseArmsLoop fuel (renderArms arms ss) = Except.ok arms) :=
  ⟨parseVariantsLoop_render, parseGroupsLoop_render, parseArmsLoop_render⟩

/-- Witness for the amended C4: concrete variant, group and arm lists with
and without single trailing commas all parse to the same ASTs. -/
theorem c4_amended_witness :
    parseVariantsLoop 2 (renderVariants [vA, vB] [true]) = Except.ok [vA, vB]
  ∧ parseVariantsLoop 2 (renderVariants [vA, vB] [false, true]) = Except.ok [vA, vB]
  ∧ parseGroupsLoop 1 (renderGroupsWith [(gBusiness, [true])] [true]) = Except.ok [gBusiness]
  ∧ parseArmsLoop 1 (renderArms [⟨"Protocol", [Tok.ident "p"], [Tok.lit "1"]⟩] [false])
      = Except.ok [⟨"Protocol", [Tok.ident "p"], [Tok.lit "1"]⟩] := by
  have hvab : ∀ v ∈ [vA, vB], v.ty.toks ≠ [] := by
    intro v hv
    rcases List.mem_cons.mp hv with h | h
    · subst h
      simp [vA]
    · rw [List.mem_singleton] at h
      subst h
      simp [vB]
  refine ⟨c4_amended_single_optional_commas.1 [vA, vB] [true] 2 hvab (by decide),
          c4_amended_single_optional_commas.1 [vA, vB] [false, true] 2 hvab (by decide),
          c4_amended_single_optional_commas.2.1 [(gBusiness, [true])] [true] 1 ?_ (by decide),
          c4_amended_single_optional_commas.2.2
            [⟨"Protocol", [Tok.ident "p"], [Tok.lit "1"]⟩] [false] 1 ?_ (by decide)⟩
  · intro q hq
    rw [List.mem_singleton] at hq
    subst hq
    intro v hv
    simp only [gBusiness] at hv
    rw [List.mem_singleton] at hv
    subst hv
    simp [vC]
  · intro a ha
    rw [List.mem_singleton] at ha
    subst ha
    exact ⟨Tok.lit "1", rfl, rfl⟩
